import Mathlib

/-!
Shallow embedding of `DSA_Mastery_KB/10_system_design_dsa/lru_cache_design/lru_cache.py`.

The Python source keeps two mutually consistent structures:
  * `self.cache` — a dict mapping each key to its `Node`;
  * a doubly linked list of `Node`s between two sentinels `self.head` (MRU end)
    and `self.tail` (LRU end); each `Node` carries `key` and `val`.

We embed the chain of real (non-sentinel) nodes, read from `head.next` up to
`tail.prev`, as a Lean `List (Int × Int)` of `(key, val)` pairs, most recently
used first.  An empty list represents the two sentinels linked directly to each
other.  On every state reachable through the public operations the dict is in
lock-step with the chain (each key maps to the unique chain node carrying it),
so the dict is represented by the same list: its key set is `order.map Prod.fst`
and its size is `order.length`.  Pointer splicing becomes list surgery:
`_add` (insert right after the head sentinel) is `List.cons`, `_remove` of the
node a key maps to is `removeKey`, and the eviction victim `self.tail.prev`
is the last element of the list.  Keys and values are Python ints, embedded
as `Int`.
-/

namespace LRU

/-- State of `LRUCache` (`lru_cache.py`, lines 8-16): the constructor argument
`capacity` (stored unchecked) and the chain of real nodes `head.next … tail.prev`
as `(key, val)` pairs, MRU first.  The dict `self.cache` is in lock-step with
the chain on all reachable states and is represented by the same list. -/
structure LRUCache where
  capacity : Int
  order : List (Int × Int)
  deriving Repr, DecidableEq

/-- Dict lookup `self.cache[key]`, returning the value of the node `key` maps
to (the first — on reachable states, unique — chain entry with that key);
`(findVal key order).isSome` is the containment test `key in self.cache`. -/
def findVal (key : Int) : List (Int × Int) → Option Int
  | [] => none
  | (k, v) :: rest => if k = key then some v else findVal key rest

/-- `self._remove(node)` (lines 18-22) applied to the node that `key` maps to:
unlink the first (on reachable states, unique) entry carrying `key` from the
chain. -/
def removeKey (key : Int) : List (Int × Int) → List (Int × Int)
  | [] => []
  | (k, v) :: rest => if k = key then rest else (k, v) :: removeKey key rest

/-- The key set of the dict `self.cache` (which on reachable states equals the
keys occurring along the chain). -/
def LRUCache.index (c : LRUCache) : List Int := c.order.map Prod.fst

/-- `LRUCache.__init__` (lines 9-16): store `capacity` (no validation in the
source) and link the two sentinels to each other, i.e. an empty chain and an
empty dict. -/
def LRUCache.init (capacity : Int) : LRUCache :=
  { capacity := capacity, order := [] }

/-- `LRUCache.get` (lines 32-38): if `key in self.cache`, `_remove` the node
and `_add` it back right after the head sentinel (prepend), returning its
`val`; otherwise return `-1` and leave the cache untouched. -/
def LRUCache.get (c : LRUCache) (key : Int) : LRUCache × Int :=
  match findVal key c.order with
  | some v => ({ c with order := (key, v) :: removeKey key c.order }, v)
  | none => (c, -1)

/-- `LRUCache.put` (lines 40-52): if `key in self.cache`, `_remove` its current
node; allocate a fresh node `(key, value)` and `_add` it after the head
sentinel; write it into the dict; if `len(self.cache) > self.capacity`, evict
`self.tail.prev` — the last chain entry — removing it from both chain and
dict (`List.dropLast`). -/
def LRUCache.put (c : LRUCache) (key value : Int) : LRUCache :=
  let afterRemove :=
    if (findVal key c.order).isSome then removeKey key c.order else c.order
  let afterAdd := (key, value) :: afterRemove
  if (afterAdd.length : Int) > c.capacity then
    { c with order := afterAdd.dropLast }
  else
    { c with order := afterAdd }

/-- A call to one of the two public operations. -/
inductive Op where
  | get (key : Int)
  | put (key value : Int)

/-- Execute one call, keeping the resulting state. -/
def LRUCache.step (c : LRUCache) : Op → LRUCache
  | .get k => (c.get k).1
  | .put k v => c.put k v

/-- Execute a sequence of calls starting from `c`. -/
def LRUCache.runFrom (c : LRUCache) (ops : List Op) : LRUCache :=
  ops.foldl LRUCache.step c

/-- Execute a sequence of calls on a freshly constructed cache. -/
def LRUCache.run (capacity : Int) (ops : List Op) : LRUCache :=
  LRUCache.runFrom (LRUCache.init capacity) ops

/-- Well-formedness of a cache state: the chain carries pairwise distinct keys
and holds at most `max capacity 0` entries.  This holds for every state
reachable from a constructed cache (`wf_runFrom`). -/
def LRUCache.WF (c : LRUCache) : Prop :=
  c.index.Nodup ∧ (c.order.length : Int) ≤ max c.capacity 0

instance (c : LRUCache) : Decidable c.WF :=
  inferInstanceAs (Decidable (_ ∧ _))

/-- The constructor described by the spec (§4.1, §7), for comparison with the
source's `LRUCache.init`: reject non-positive capacities with
`InvalidCapacity`, otherwise produce the empty cache. -/
def specNew (capacity : Int) : Except String LRUCache :=
  if capacity ≤ 0 then .error "InvalidCapacity"
  else .ok (LRUCache.init capacity)

/-- The value a single call writes to `key` (`put key v` writes `v`; any other
call writes nothing). -/
def opWrite (key : Int) : Op → Option Int
  | .put k v => if k = key then some v else none
  | .get _ => none

/-- Value written by the most recent `put` to `key` in `ops` (which are listed
oldest first), if any. -/
def lastPut (key : Int) : List Op → Option Int
  | [] => none
  | op :: ops => (lastPut key ops).or (opWrite key op)

/-- The spec's recency-correctness scenario (§8) on a freshly constructed
capacity-2 cache: `put(k1,v1); put(k2,v2); get(k1); put(k3,v3)`. -/
def recencyTrace (k1 v1 k2 v2 k3 v3 : Int) : LRUCache :=
  (((((LRUCache.init 2).put k1 v1).put k2 v2).get k1).1).put k3 v3

/-- Cost model for the complexity contract (§4.1): every hash-index operation
on `self.cache` (containment test, lookup, write, delete) and every read or
write of a node link (`prev`/`next`/`key`/`val` field access, node allocation)
counts one step.  `_remove` performs 4 link operations (lines 18-22). -/
def removeSteps : Nat := 4

/-- `_add` performs 5 link operations (lines 24-30). -/
def addSteps : Nat := 5

/-- Steps performed by `get` (lines 32-38): the containment test, then on a
hit the dict lookup, `_remove`, `_add` and the `node.val` read. -/
def LRUCache.getSteps (c : LRUCache) (key : Int) : Nat :=
  1 + if (findVal key c.order).isSome then 1 + removeSteps + addSteps + 1 else 0

/-- Steps performed by `put` (lines 40-52): the containment test; on a present
key the dict lookup and `_remove`; node allocation, `_add`, the dict write and
the `len` comparison; on eviction the `tail.prev` read, `_remove`, the
`lru.key` read and the dict delete.  The eviction branch mirrors `put`'s
condition exactly. -/
def LRUCache.putSteps (c : LRUCache) (key : Int) : Nat :=
  let present := (findVal key c.order).isSome
  let afterRemove := if present then removeKey key c.order else c.order
  (1 + if present then 1 + removeSteps else 0) +
    (1 + addSteps + 1 + 1) +
    if ((afterRemove.length + 1 : Nat) : Int) > c.capacity then
      1 + removeSteps + 1 + 1
    else 0

/-! ### Basic lemmas about the chain operations -/

theorem findVal_nil (key : Int) : findVal key [] = none := rfl

theorem findVal_cons (key k v : Int) (rest : List (Int × Int)) :
    findVal key ((k, v) :: rest) =
      if k = key then some v else findVal key rest := rfl

theorem removeKey_cons (key k v : Int) (rest : List (Int × Int)) :
    removeKey key ((k, v) :: rest) =
      if k = key then rest else (k, v) :: removeKey key rest := rfl

theorem findVal_eq_none_iff (key : Int) (l : List (Int × Int)) :
    findVal key l = none ↔ key ∉ l.map Prod.fst := by
  induction l with
  | nil => simp [findVal_nil]
  | cons a rest ih =>
    obtain ⟨k, v⟩ := a
    rw [findVal_cons]
    by_cases hk : k = key
    · subst hk
      simp
    · simp only [if_neg hk, List.map_cons, List.mem_cons, ih]
      constructor
      · rintro hnot (h | h)
        · exact hk h.symm
        · exact hnot h
      · intro hnot h
        exact hnot (Or.inr h)

theorem findVal_isSome_iff (key : Int) (l : List (Int × Int)) :
    (findVal key l).isSome ↔ key ∈ l.map Prod.fst := by
  rw [Option.isSome_iff_ne_none, Ne, findVal_eq_none_iff, not_not]

theorem removeKey_sublist (key : Int) (l : List (Int × Int)) :
    List.Sublist (removeKey key l) l := by
  induction l with
  | nil => exact List.Sublist.refl []
  | cons a rest ih =>
    obtain ⟨k, v⟩ := a
    rw [removeKey_cons]
    by_cases hk : k = key
    · rw [if_pos hk]
      exact List.sublist_cons_self (k, v) rest
    · rw [if_neg hk]
      exact ih.cons₂ (k, v)

theorem removeKey_of_not_mem {key : Int} {l : List (Int × Int)}
    (h : key ∉ l.map Prod.fst) : removeKey key l = l := by
  induction l with
  | nil => rfl
  | cons a rest ih =>
    obtain ⟨k, v⟩ := a
    simp only [List.map_cons, List.mem_cons] at h
    push_neg at h
    rw [removeKey_cons, if_neg (fun hk => h.1 hk.symm), ih h.2]

theorem length_removeKey {key : Int} {l : List (Int × Int)}
    (h : key ∈ l.map Prod.fst) : (removeKey key l).length + 1 = l.length := by
  induction l with
  | nil => simp at h
  | cons a rest ih =>
    obtain ⟨k, v⟩ := a
    rw [removeKey_cons]
    by_cases hk : k = key
    · rw [if_pos hk]
      simp
    · simp only [List.map_cons, List.mem_cons] at h
      rcases h with h | h
      · exact absurd h.symm hk
      · rw [if_neg hk]
        simp only [List.length_cons, ih h]

theorem not_mem_map_fst_removeKey {key : Int} {l : List (Int × Int)}
    (h : (l.map Prod.fst).Nodup) : key ∉ (removeKey key l).map Prod.fst := by
  induction l with
  | nil => simp [removeKey]
  | cons a rest ih =>
    obtain ⟨k, v⟩ := a
    simp only [List.map_cons, List.nodup_cons] at h
    rw [removeKey_cons]
    by_cases hk : k = key
    · subst hk
      rw [if_pos rfl]
      exact h.1
    · rw [if_neg hk]
      simp only [List.map_cons, List.mem_cons]
      rintro (hkey | hkey)
      · exact hk hkey.symm
      · exact ih h.2 hkey

theorem mem_map_fst_removeKey {k' key : Int} {l : List (Int × Int)}
    (h : k' ∈ (removeKey key l).map Prod.fst) : k' ∈ l.map Prod.fst :=
  ((removeKey_sublist key l).map Prod.fst).subset h

theorem nodup_map_fst_removeKey {key : Int} {l : List (Int × Int)}
    (h : (l.map Prod.fst).Nodup) : ((removeKey key l).map Prod.fst).Nodup :=
  h.sublist ((removeKey_sublist key l).map Prod.fst)

theorem findVal_removeKey_ne {k' key : Int} (h : k' ≠ key)
    (l : List (Int × Int)) : findVal k' (removeKey key l) = findVal k' l := by
  induction l with
  | nil => rfl
  | cons a rest ih =>
    obtain ⟨k, v⟩ := a
    rw [removeKey_cons]
    by_cases hk : k = key
    · subst hk
      rw [if_pos rfl, findVal_cons, if_neg (fun hkk => h hkk.symm)]
    · rw [if_neg hk, findVal_cons, findVal_cons]
      by_cases hk' : k = k'
      · rw [if_pos hk', if_pos hk']
      · rw [if_neg hk', if_neg hk', ih]

theorem findVal_dropLast {key : Int} {l : List (Int × Int)}
    (h : key ∈ (l.dropLast).map Prod.fst) :
    findVal key l.dropLast = findVal key l := by
  induction l with
  | nil => simp at h
  | cons a rest ih =>
    obtain ⟨k, v⟩ := a
    cases rest with
    | nil => simp at h
    | cons b rest' =>
      have hdl : ((k, v) :: b :: rest').dropLast = (k, v) :: (b :: rest').dropLast := rfl
      rw [hdl] at h ⊢
      rw [findVal_cons, findVal_cons]
      by_cases hk : k = key
      · rw [if_pos hk, if_pos hk]
      · rw [if_neg hk, if_neg hk]
        simp only [List.map_cons, List.mem_cons] at h
        rcases h with h | h
        · exact absurd h.symm hk
        · exact ih h

theorem mem_map_fst_of_findVal_some {key v : Int} {l : List (Int × Int)}
    (h : findVal key l = some v) : key ∈ l.map Prod.fst := by
  rw [← findVal_isSome_iff, h]
  rfl

theorem nodup_map_fst_dropLast {l : List (Int × Int)}
    (h : (l.map Prod.fst).Nodup) : ((l.dropLast).map Prod.fst).Nodup :=
  h.sublist ((l.dropLast_sublist).map Prod.fst)

/-! ### Shape of the state after one operation -/

theorem index_def (c : LRUCache) : c.index = c.order.map Prod.fst := rfl

theorem mem_index_iff {c : LRUCache} {key : Int} :
    key ∈ c.index ↔ (findVal key c.order).isSome :=
  (findVal_isSome_iff key c.order).symm

theorem get_of_findVal_some {c : LRUCache} {key v : Int}
    (h : findVal key c.order = some v) :
    c.get key = ({ c with order := (key, v) :: removeKey key c.order }, v) := by
  unfold LRUCache.get
  rw [h]

theorem get_of_findVal_none {c : LRUCache} {key : Int}
    (h : findVal key c.order = none) : c.get key = (c, -1) := by
  unfold LRUCache.get
  rw [h]

theorem capacity_get (c : LRUCache) (key : Int) :
    ((c.get key).1).capacity = c.capacity := by
  unfold LRUCache.get
  cases findVal key c.order <;> rfl

theorem capacity_put (c : LRUCache) (key value : Int) :
    (c.put key value).capacity = c.capacity := by
  simp only [LRUCache.put]
  split <;> split <;> rfl

theorem put_of_not_mem_evict {c : LRUCache} {key : Int} (value : Int)
    (h : key ∉ c.index)
    (hcap : ((c.order.length + 1 : Nat) : Int) > c.capacity) :
    (c.put key value).order = ((key, value) :: c.order).dropLast := by
  have hf : findVal key c.order = none := (findVal_eq_none_iff key c.order).mpr h
  simp only [LRUCache.put, hf, Option.isSome_none, Bool.false_eq_true, if_false,
    List.length_cons]
  rw [if_pos (by push_cast; push_cast at hcap; omega)]

theorem put_of_not_mem_no_evict {c : LRUCache} {key : Int} (value : Int)
    (h : key ∉ c.index)
    (hcap : ((c.order.length + 1 : Nat) : Int) ≤ c.capacity) :
    (c.put key value).order = (key, value) :: c.order := by
  have hf : findVal key c.order = none := (findVal_eq_none_iff key c.order).mpr h
  simp only [LRUCache.put, hf, Option.isSome_none, Bool.false_eq_true, if_false,
    List.length_cons]
  rw [if_neg (by push_cast; push_cast at hcap; omega)]

theorem put_of_mem_evict {c : LRUCache} {key : Int} (value : Int)
    (h : key ∈ c.index)
    (hcap : (((removeKey key c.order).length + 1 : Nat) : Int) > c.capacity) :
    (c.put key value).order = ((key, value) :: removeKey key c.order).dropLast := by
  have hf : (findVal key c.order).isSome := mem_index_iff.mp h
  simp only [LRUCache.put, hf, if_true, List.length_cons]
  rw [if_pos (by push_cast; push_cast at hcap; omega)]

theorem put_of_mem_no_evict {c : LRUCache} {key : Int} (value : Int)
    (h : key ∈ c.index)
    (hcap : (((removeKey key c.order).length + 1 : Nat) : Int) ≤ c.capacity) :
    (c.put key value).order = (key, value) :: removeKey key c.order := by
  have hf : (findVal key c.order).isSome := mem_index_iff.mp h
  simp only [LRUCache.put, hf, if_true, List.length_cons]
  rw [if_neg (by push_cast; push_cast at hcap; omega)]

theorem put_order_of_mem_le {c : LRUCache} {key : Int} (value : Int)
    (h : key ∈ c.index) (hle : (c.order.length : Int) ≤ c.capacity) :
    (c.put key value).order = (key, value) :: removeKey key c.order := by
  have hlen := length_removeKey h
  exact put_of_mem_no_evict value h (by omega)

theorem length_put_of_mem {c : LRUCache} {key : Int} (value : Int)
    (h : key ∈ c.index) (hle : (c.order.length : Int) ≤ c.capacity) :
    (c.put key value).order.length = c.order.length := by
  rw [put_order_of_mem_le value h hle]
  have hlen := length_removeKey h
  simp only [List.length_cons]
  omega

/-! ### Preservation of well-formedness -/

theorem order_length_get (c : LRUCache) (key : Int) :
    ((c.get key).1).order.length = c.order.length := by
  cases hf : findVal key c.order with
  | none => rw [get_of_findVal_none hf]
  | some v =>
    rw [get_of_findVal_some hf]
    have := length_removeKey (mem_map_fst_of_findVal_some hf)
    simp only [List.length_cons]
    omega

theorem findVal_get (c : LRUCache) (touched key : Int) :
    findVal key (((c.get touched).1).order) = findVal key c.order := by
  cases hf : findVal touched c.order with
  | none => rw [get_of_findVal_none hf]
  | some v =>
    rw [get_of_findVal_some hf]
    by_cases hk : touched = key
    · subst hk
      rw [findVal_cons, if_pos rfl, hf]
    · rw [findVal_cons, if_neg hk, findVal_removeKey_ne (fun hkk => hk hkk.symm)]

theorem mem_index_get_iff {c : LRUCache} {touched key : Int} :
    key ∈ ((c.get touched).1).index ↔ key ∈ c.index := by
  rw [mem_index_iff, mem_index_iff, findVal_get]

theorem nodup_index_get {c : LRUCache} (touched : Int)
    (h : c.index.Nodup) : ((c.get touched).1).index.Nodup := by
  cases hf : findVal touched c.order with
  | none => rw [get_of_findVal_none hf]; exact h
  | some v =>
    rw [get_of_findVal_some hf]
    rw [index_def] at h ⊢
    simp only [List.map_cons, List.nodup_cons]
    exact ⟨not_mem_map_fst_removeKey h, nodup_map_fst_removeKey h⟩

theorem nodup_index_put {c : LRUCache} (key value : Int)
    (h : c.index.Nodup) : (c.put key value).index.Nodup := by
  rw [index_def] at h
  by_cases hm : key ∈ c.index
  · have hcons : (((key, value) :: removeKey key c.order).map Prod.fst).Nodup := by
      simp only [List.map_cons, List.nodup_cons]
      exact ⟨not_mem_map_fst_removeKey h, nodup_map_fst_removeKey h⟩
    by_cases hcap : (((removeKey key c.order).length + 1 : Nat) : Int) > c.capacity
    · rw [index_def, put_of_mem_evict value hm hcap]
      exact nodup_map_fst_dropLast hcons
    · rw [index_def, put_of_mem_no_evict value hm (by omega)]
      exact hcons
  · have hcons : (((key, value) :: c.order).map Prod.fst).Nodup := by
      simp only [List.map_cons, List.nodup_cons]
      exact ⟨hm, h⟩
    by_cases hcap : ((c.order.length + 1 : Nat) : Int) > c.capacity
    · rw [index_def, put_of_not_mem_evict value hm hcap]
      exact nodup_map_fst_dropLast hcons
    · rw [index_def, put_of_not_mem_no_evict value hm (by omega)]
      exact hcons

theorem length_put_le {c : LRUCache} (key value : Int)
    (h : (c.order.length : Int) ≤ max c.capacity 0) :
    ((c.put key value).order.length : Int) ≤ max c.capacity 0 := by
  have hmax1 : c.capacity ≤ max c.capacity 0 := le_max_left _ _
  by_cases hm : key ∈ c.index
  · have hlen := length_removeKey hm
    by_cases hcap : (((removeKey key c.order).length + 1 : Nat) : Int) > c.capacity
    · rw [put_of_mem_evict value hm hcap]
      simp only [List.length_dropLast, List.length_cons]
      omega
    · rw [put_of_mem_no_evict value hm (by omega)]
      simp only [List.length_cons]
      omega
  · by_cases hcap : ((c.order.length + 1 : Nat) : Int) > c.capacity
    · rw [put_of_not_mem_evict value hm hcap]
      simp only [List.length_dropLast, List.length_cons]
      omega
    · rw [put_of_not_mem_no_evict value hm (by omega)]
      simp only [List.length_cons]
      omega

theorem wf_init (capacity : Int) : (LRUCache.init capacity).WF := by
  constructor
  · exact List.nodup_nil
  · show ((([] : List (Int × Int)).length : Int) ≤ max capacity 0)
    simp only [List.length_nil, Int.ofNat_zero, Nat.cast_zero]
    exact le_max_right capacity 0

theorem wf_step {c : LRUCache} (h : c.WF) (op : Op) : (c.step op).WF := by
  obtain ⟨hnd, hle⟩ := h
  cases op with
  | get key =>
    refine ⟨nodup_index_get key hnd, ?_⟩
    rw [LRUCache.step, order_length_get, capacity_get]
    exact hle
  | put key value =>
    refine ⟨nodup_index_put key value hnd, ?_⟩
    rw [LRUCache.step, capacity_put]
    exact length_put_le key value hle

theorem wf_runFrom {c : LRUCache} (h : c.WF) (ops : List Op) :
    (c.runFrom ops).WF := by
  induction ops generalizing c with
  | nil => exact h
  | cons op ops ih => exact ih (wf_step h op)

theorem wf_run (capacity : Int) (ops : List Op) :
    (LRUCache.run capacity ops).WF :=
  wf_runFrom (wf_init capacity) ops

theorem capacity_step (c : LRUCache) (op : Op) :
    (c.step op).capacity = c.capacity := by
  cases op with
  | get key => exact capacity_get c key
  | put key value => exact capacity_put c key value

theorem step_get (c : LRUCache) (k : Int) : c.step (Op.get k) = (c.get k).1 := rfl

theorem step_put (c : LRUCache) (k v : Int) : c.step (Op.put k v) = c.put k v := rfl

theorem run_def (capacity : Int) (ops : List Op) :
    LRUCache.run capacity ops = (LRUCache.init capacity).runFrom ops := rfl

theorem runFrom_nil (c : LRUCache) : c.runFrom [] = c := rfl

theorem runFrom_cons (c : LRUCache) (op : Op) (ops : List Op) :
    c.runFrom (op :: ops) = (c.step op).runFrom ops := rfl

theorem capacity_runFrom (c : LRUCache) (ops : List Op) :
    (c.runFrom ops).capacity = c.capacity := by
  induction ops generalizing c with
  | nil => rfl
  | cons op ops ih => rw [runFrom_cons, ih, capacity_step]

/-! ### Tracking values across a history of calls -/

theorem mem_map_fst_dropLast {k : Int} {l : List (Int × Int)}
    (h : k ∈ (l.dropLast).map Prod.fst) : k ∈ l.map Prod.fst :=
  ((l.dropLast_sublist).map Prod.fst).subset h

theorem dropLast_cons_ne_nil (a : Int × Int) {l : List (Int × Int)}
    (h : l ≠ []) : (a :: l).dropLast = a :: l.dropLast := by
  cases l with
  | nil => exact absurd rfl h
  | cons b rest => rfl

theorem lastPut_cons (key : Int) (op : Op) (ops : List Op) :
    lastPut key (op :: ops) = (lastPut key ops).or (opWrite key op) := rfl

theorem lastPut_cons_eq_none {key : Int} {op : Op} {ops : List Op}
    (h : lastPut key (op :: ops) = none) :
    lastPut key ops = none ∧ ∀ k v, op = Op.put k v → k ≠ key := by
  rw [lastPut_cons] at h
  obtain ⟨h1, h2⟩ := Option.or_eq_none.mp h
  refine ⟨h1, ?_⟩
  rintro k v rfl hk
  simp only [opWrite, if_pos hk] at h2
  exact Option.noConfusion h2

theorem mem_index_put {c : LRUCache} {key value k' : Int}
    (h : k' ∈ (c.put key value).index) : k' = key ∨ k' ∈ c.index := by
  by_cases hm : key ∈ c.index
  · by_cases hcap : (((removeKey key c.order).length + 1 : Nat) : Int) > c.capacity
    · rw [index_def, put_of_mem_evict value hm hcap] at h
      have h' := mem_map_fst_dropLast h
      simp only [List.map_cons, List.mem_cons] at h'
      exact h'.imp id mem_map_fst_removeKey
    · rw [index_def, put_of_mem_no_evict value hm (by omega)] at h
      simp only [List.map_cons, List.mem_cons] at h
      exact h.imp id mem_map_fst_removeKey
  · by_cases hcap : ((c.order.length + 1 : Nat) : Int) > c.capacity
    · rw [index_def, put_of_not_mem_evict value hm hcap] at h
      have h' := mem_map_fst_dropLast h
      simp only [List.map_cons, List.mem_cons] at h'
      exact h'.imp id id
    · rw [index_def, put_of_not_mem_no_evict value hm (by omega)] at h
      simp only [List.map_cons, List.mem_cons] at h
      exact h.imp id id

theorem mem_index_runFrom_of_no_put {c : LRUCache} {ops : List Op} {key : Int}
    (hnp : lastPut key ops = none) (h : key ∈ (c.runFrom ops).index) :
    key ∈ c.index := by
  induction ops generalizing c with
  | nil => exact h
  | cons op ops ih =>
    obtain ⟨hnp', hop⟩ := lastPut_cons_eq_none hnp
    rw [runFrom_cons] at h
    have hstep := ih hnp' h
    cases op with
    | get k => exact mem_index_get_iff.mp hstep
    | put k v =>
      rcases mem_index_put hstep with heq | hmem
      · exact absurd heq.symm (hop k v rfl)
      · exact hmem

theorem findVal_put_self_of_mem {c : LRUCache} {key value : Int}
    (h : key ∈ (c.put key value).index) :
    findVal key ((c.put key value).order) = some value := by
  by_cases hm : key ∈ c.index
  · by_cases hcap : (((removeKey key c.order).length + 1 : Nat) : Int) > c.capacity
    · rw [index_def, put_of_mem_evict value hm hcap] at h
      rw [put_of_mem_evict value hm hcap]
      cases hb : removeKey key c.order with
      | nil => rw [hb] at h; simp at h
      | cons b rest =>
        rw [dropLast_cons_ne_nil _ (List.cons_ne_nil b rest), findVal_cons,
          if_pos rfl]
    · rw [put_of_mem_no_evict value hm (by omega), findVal_cons, if_pos rfl]
  · by_cases hcap : ((c.order.length + 1 : Nat) : Int) > c.capacity
    · rw [index_def, put_of_not_mem_evict value hm hcap] at h
      rw [put_of_not_mem_evict value hm hcap]
      cases hb : c.order with
      | nil => rw [hb] at h; simp at h
      | cons b rest =>
        rw [dropLast_cons_ne_nil _ (List.cons_ne_nil b rest), findVal_cons,
          if_pos rfl]
    · rw [put_of_not_mem_no_evict value hm (by omega), findVal_cons, if_pos rfl]

theorem findVal_put_other {c : LRUCache} {key value k' : Int} (hne : k' ≠ key)
    (h : k' ∈ (c.put key value).index) :
    findVal k' ((c.put key value).order) = findVal k' c.order := by
  have hbase : ∀ base : List (Int × Int),
      findVal k' ((key, value) :: base) = findVal k' base := by
    intro base
    rw [findVal_cons, if_neg (fun hkk => hne hkk.symm)]
  by_cases hm : key ∈ c.index
  · by_cases hcap : (((removeKey key c.order).length + 1 : Nat) : Int) > c.capacity
    · rw [index_def, put_of_mem_evict value hm hcap] at h
      rw [put_of_mem_evict value hm hcap, findVal_dropLast h, hbase,
        findVal_removeKey_ne hne]
    · rw [put_of_mem_no_evict value hm (by omega), hbase,
        findVal_removeKey_ne hne]
  · by_cases hcap : ((c.order.length + 1 : Nat) : Int) > c.capacity
    · rw [index_def, put_of_not_mem_evict value hm hcap] at h
      rw [put_of_not_mem_evict value hm hcap, findVal_dropLast h, hbase]
    · rw [put_of_not_mem_no_evict value hm (by omega), hbase]

/-- For any key present after a history of calls, its stored value is the one
written by the most recent `put` to it (or its value in the starting state if
the history never wrote it). -/
theorem findVal_runFrom {ops : List Op} {c : LRUCache} {key : Int}
    (h : key ∈ (c.runFrom ops).index) :
    findVal key ((c.runFrom ops).order) =
      (lastPut key ops).or (findVal key c.order) := by
  induction ops generalizing c with
  | nil => exact (Option.none_or).symm
  | cons op ops ih =>
    rw [runFrom_cons] at h ⊢
    have ih' := ih (c := c.step op) h
    rw [ih', lastPut_cons, Option.or_assoc]
    cases hl : lastPut key ops with
    | some v => rfl
    | none =>
      rw [Option.none_or, Option.none_or]
      have hmem : key ∈ (c.step op).index := mem_index_runFrom_of_no_put hl h
      cases op with
      | get k =>
        rw [show opWrite key (Op.get k) = none from rfl, Option.none_or]
        exact findVal_get c k key
      | put k v =>
        by_cases hk : k = key
        · subst hk
          rw [show opWrite k (Op.put k v) = some v from by
            simp [opWrite]]
          exact findVal_put_self_of_mem hmem
        · rw [show opWrite key (Op.put k v) = none from by
            simp [opWrite, hk], Option.none_or]
          exact findVal_put_other (fun hkk => hk hkk.symm) hmem

/-- With a positive capacity, a `put` always leaves its own key present, bound
to the value just written (the freshly added head node cannot be the eviction
victim unless it is the only node, which needs `capacity < 1`). -/
theorem findVal_put_self_of_pos {c : LRUCache} {key value : Int}
    (hcap : 0 < c.capacity) :
    findVal key ((c.put key value).order) = some value := by
  by_cases hm : key ∈ c.index
  · by_cases hcapc : (((removeKey key c.order).length + 1 : Nat) : Int) > c.capacity
    · rw [put_of_mem_evict value hm hcapc]
      cases hb : removeKey key c.order with
      | nil => rw [hb] at hcapc; simp at hcapc; omega
      | cons b rest =>
        rw [dropLast_cons_ne_nil _ (List.cons_ne_nil b rest), findVal_cons,
          if_pos rfl]
    · rw [put_of_mem_no_evict value hm (by omega), findVal_cons, if_pos rfl]
  · by_cases hcapc : ((c.order.length + 1 : Nat) : Int) > c.capacity
    · rw [put_of_not_mem_evict value hm hcapc]
      cases hb : c.order with
      | nil => rw [hb] at hcapc; simp at hcapc; omega
      | cons b rest =>
        rw [dropLast_cons_ne_nil _ (List.cons_ne_nil b rest), findVal_cons,
          if_pos rfl]
    · rw [put_of_not_mem_no_evict value hm (by omega), findVal_cons, if_pos rfl]

/-- With a non-positive capacity and an empty chain, every call leaves the
chain empty: a `put` inserts its node and immediately evicts it. -/
theorem runFrom_order_nil_of_cap_nonpos {c : LRUCache} (hcap : c.capacity ≤ 0)
    (hord : c.order = []) (ops : List Op) : (c.runFrom ops).order = [] := by
  induction ops generalizing c with
  | nil => exact hord
  | cons op ops ih =>
    rw [runFrom_cons]
    refine ih ?_ ?_
    · rw [capacity_step]
      exact hcap
    · cases op with
      | get k =>
        have hfv : findVal k c.order = none := by rw [hord]; rfl
        rw [step_get, get_of_findVal_none hfv]
        exact hord
      | put k v =>
        have hnm : k ∉ c.index := by rw [index_def, hord]; simp
        have hgt : ((c.order.length + 1 : Nat) : Int) > c.capacity := by
          rw [hord]
          simp only [List.length_nil, Nat.zero_add, Nat.cast_one]
          omega
        rw [step_put, put_of_not_mem_evict v hnm hgt, hord]
        rfl

/-! ### The claims -/

/-- C1: Capacity bound invariant — for every cache constructed with a positive
capacity and every sequence of `get` and `put` calls, after each call returns
the number of entries in the index satisfies `|index| <= capacity`.  (Any
prefix of a call sequence is itself a call sequence, so quantifying over `ops`
covers the state after each call.) -/
theorem capacity_bound (capacity : Int) (hcap : 0 < capacity) (ops : List Op) :
    (((LRUCache.run capacity ops).index).length : Int) ≤ capacity := by
  have hwf := wf_run capacity ops
  have hlen := hwf.2
  rw [run_def, capacity_runFrom] at hlen
  rw [show (LRUCache.init capacity).capacity = capacity from rfl,
    max_eq_left hcap.le] at hlen
  rw [index_def, List.length_map]
  rw [run_def]
  exact hlen

/-- C1 witness: a capacity-1 cache keeps at most one entry across a sequence
of three calls. -/
theorem capacity_bound_witness :
    (0 : Int) < 1 ∧
      (((LRUCache.run 1 [Op.put 1 1, Op.put 2 2, Op.get 1]).index).length : Int)
        ≤ 1 :=
  ⟨by decide, capacity_bound 1 (by decide) [Op.put 1 1, Op.put 2 2, Op.get 1]⟩

/-- C5 counterexample: the source constructor performs no validation.  At
capacity `0` (which is `<= 0`) it succeeds and produces a fully formed empty
cache, while the spec's constructor (`specNew`, modelling §4.1's
`InvalidCapacity` requirement word for word) rejects that capacity.  This
refutes the claim that construction with a non-positive capacity fails and
produces no cache. -/
theorem constructor_unvalidated :
    LRUCache.init 0 = LRUCache.mk 0 [] ∧
      specNew 0 = Except.error "InvalidCapacity" :=
  ⟨rfl, rfl⟩

/-- C5 amended: construction never fails.  For every capacity — positive or
not — `LRUCache.init` succeeds and yields a cache holding that capacity, an
empty index, and an order containing only the two mutually linked sentinels
(an empty chain). -/
theorem constructor_total (capacity : Int) :
    (LRUCache.init capacity).capacity = capacity ∧
      (LRUCache.init capacity).index = [] ∧
      (LRUCache.init capacity).order = [] :=
  ⟨rfl, rfl, rfl⟩

/-- C7: Absence is stable — `get` on a key not in the index (never inserted,
or evicted) returns the cache unchanged together with the absent result `-1`;
in particular it modifies neither the index nor the recency order, no matter
how often it is repeated. -/
theorem absent_stable (c : LRUCache) (key : Int) (h : key ∉ c.index) :
    c.get key = (c, -1) :=
  get_of_findVal_none ((findVal_eq_none_iff key c.order).mpr h)

/-- C7 witness: a missing key on a concrete one-entry cache. -/
theorem absent_stable_witness :
    9 ∉ (LRUCache.mk 2 [(1, 5)]).index ∧
      (LRUCache.mk 2 [(1, 5)]).get 9 = (LRUCache.mk 2 [(1, 5)], -1) :=
  ⟨by decide, absent_stable (LRUCache.mk 2 [(1, 5)]) 9 (by decide)⟩

/-- C8: the code violates absent-result distinguishability.  On a capacity-1
cache after `put 7 (-1)`, key `7` is present (bound to `-1`) and key `8` is
absent, yet `get` returns `-1` in both cases — the outcome of `get` on a key
holding the value `-1` is indistinguishable from `get` on a missing key. -/
theorem absent_sentinel_collision :
    7 ∈ (LRUCache.run 1 [Op.put 7 (-1)]).index ∧
      8 ∉ (LRUCache.run 1 [Op.put 7 (-1)]).index ∧
      ((LRUCache.run 1 [Op.put 7 (-1)]).get 7).2 = -1 ∧
      ((LRUCache.run 1 [Op.put 7 (-1)]).get 8).2 = -1 := by
  decide

/-- C9: Capacity-zero behavior — construction with capacity `0` succeeds, and
after any sequence of calls the index is empty, the order holds only the two
sentinels (an empty chain), and `get` on any key returns `-1`: each `put`
inserts its node and immediately evicts it again. -/
theorem capacity_zero_cache (ops : List Op) (key : Int) :
    (LRUCache.run 0 ops).order = [] ∧
      (LRUCache.run 0 ops).index = [] ∧
      ((LRUCache.run 0 ops).get key).2 = -1 := by
  have hord : (LRUCache.run 0 ops).order = [] :=
    runFrom_order_nil_of_cap_nonpos (le_refl 0) rfl ops
  refine ⟨hord, ?_, ?_⟩
  · rw [index_def, hord]
    rfl
  · have hfv : findVal key (LRUCache.run 0 ops).order = none := by
      rw [hord]
      rfl
    rw [get_of_findVal_none hfv]

/-- C2: Eviction correctness — on a well-formed cache with positive capacity:
a `put` of an absent key that pushes the entry count past the capacity evicts
exactly one entry, namely the one adjacent to the tail sentinel (the last
chain entry, removed by `dropLast`), leaving the count unchanged; a `put` of
an absent key within capacity evicts nothing; a `put` of a present key evicts
nothing and keeps the count. -/
theorem eviction_correct (c : LRUCache) (hwf : c.WF) (hcap : 0 < c.capacity)
    (key value : Int) :
    (key ∉ c.index → ((c.order.length + 1 : Nat) : Int) > c.capacity →
      (c.put key value).order = (key, value) :: c.order.dropLast ∧
      (c.put key value).order.length = c.order.length) ∧
    (key ∉ c.index → ((c.order.length + 1 : Nat) : Int) ≤ c.capacity →
      (c.put key value).order = (key, value) :: c.order) ∧
    (key ∈ c.index →
      (c.put key value).order = (key, value) :: removeKey key c.order ∧
      (c.put key value).order.length = c.order.length) := by
  have hle : (c.order.length : Int) ≤ c.capacity := by
    have h2 := hwf.2
    rw [max_eq_left hcap.le] at h2
    exact h2
  refine ⟨?_, ?_, ?_⟩
  · intro hnm hgt
    have hne : c.order ≠ [] := by
      intro h0
      rw [h0] at hgt
      simp only [List.length_nil, Nat.zero_add, Nat.cast_one] at hgt
      omega
    have hpos : 0 < c.order.length := List.length_pos.mpr hne
    refine ⟨?_, ?_⟩
    · rw [put_of_not_mem_evict value hnm hgt, dropLast_cons_ne_nil _ hne]
    · rw [put_of_not_mem_evict value hnm hgt, dropLast_cons_ne_nil _ hne]
      simp only [List.length_cons, List.length_dropLast]
      omega
  · intro hnm hle2
    exact put_of_not_mem_no_evict value hnm hle2
  · intro hm
    exact ⟨put_order_of_mem_le value hm hle, length_put_of_mem value hm hle⟩

/-- C2 witness: a full capacity-2 cache; `put` of the fresh key `3` yields a
chain holding the new entry and the former MRU entry, with the tail-adjacent
entry `(2, 20)` evicted. -/
theorem eviction_correct_witness :
    ((LRUCache.mk 2 [(1, 10), (2, 20)]).put 3 30).order = [(3, 30), (1, 10)] := by
  have h :=
    eviction_correct (LRUCache.mk 2 [(1, 10), (2, 20)]) (by decide) (by decide)
      3 30
  have hA := h.1 (by decide) (by decide)
  rw [hA.1]
  rfl

/-- C3: Recency scenario — on a fresh capacity-2 cache, after
`put(k1,v1); put(k2,v2); get(k1); put(k3,v3)` with three distinct keys, `k2`
has been evicted: `get k2` returns the absent result `-1` while `get k1`
returns `v1` and `get k3` returns `v3`. -/
theorem recency_scenario (k1 k2 k3 v1 v2 v3 : Int)
    (h12 : k1 ≠ k2) (h13 : k1 ≠ k3) (h23 : k2 ≠ k3) :
    ((recencyTrace k1 v1 k2 v2 k3 v3).get k2).2 = -1 ∧
    ((recencyTrace k1 v1 k2 v2 k3 v3).get k1).2 = v1 ∧
    ((recencyTrace k1 v1 k2 v2 k3 v3).get k3).2 = v3 := by
  simp [recencyTrace, LRUCache.put, LRUCache.get, LRUCache.init, findVal,
    removeKey, h12, h13, h23, Ne.symm h12, Ne.symm h13, Ne.symm h23]

/-- C3 witness: the scenario at keys 1, 2, 3 and values 10, 20, 30. -/
theorem recency_scenario_witness :
    ((recencyTrace 1 10 2 20 3 30).get 2).2 = -1 ∧
    ((recencyTrace 1 10 2 20 3 30).get 1).2 = 10 ∧
    ((recencyTrace 1 10 2 20 3 30).get 3).2 = 30 :=
  recency_scenario 1 2 3 10 20 30 (by decide) (by decide) (by decide)

/-- C4: Round-trip — on a cache constructed with positive capacity, for every
key still present after a history of calls (inserted by some `put` and not
since evicted), `get` returns exactly the value passed to the most recent
`put` of that key. -/
theorem round_trip (capacity : Int) (_hcap : 0 < capacity) (ops : List Op)
    (key : Int) (hmem : key ∈ (LRUCache.run capacity ops).index) :
    ∃ v, lastPut key ops = some v ∧
      ((LRUCache.run capacity ops).get key).2 = v := by
  rw [run_def] at hmem ⊢
  have h := findVal_runFrom hmem
  rw [show findVal key ((LRUCache.init capacity).order) = none from rfl,
    Option.or_none] at h
  have hsome := mem_index_iff.mp hmem
  cases hv : findVal key (((LRUCache.init capacity).runFrom ops).order) with
  | none => rw [hv] at hsome; exact absurd hsome (by simp)
  | some v =>
    refine ⟨v, by rw [← h, hv], ?_⟩
    rw [get_of_findVal_some hv]

/-- C4 witness: after `put 1 10; put 2 20` on a capacity-2 cache, key `1` is
present and `get 1` returns its most recently put value. -/
theorem round_trip_witness :
    (0 : Int) < 2 ∧ 1 ∈ (LRUCache.run 2 [Op.put 1 10, Op.put 2 20]).index ∧
      ∃ v, lastPut 1 [Op.put 1 10, Op.put 2 20] = some v ∧
        ((LRUCache.run 2 [Op.put 1 10, Op.put 2 20]).get 1).2 = v :=
  ⟨by decide, by decide,
    round_trip 2 (by decide) [Op.put 1 10, Op.put 2 20] 1 (by decide)⟩

/-- C6: Idempotent re-insertion — on a well-formed cache with positive
capacity, after `put k v1; put k v2` a `get k` returns `v2`, and the entry
count equals the count after the first `put`: a `put` of an already-present
key never changes the entry count and never triggers an eviction. -/
theorem idempotent_reinsert (c : LRUCache) (hwf : c.WF) (hcap : 0 < c.capacity)
    (key v1 v2 : Int) :
    ((((c.put key v1).put key v2).get key).2 = v2) ∧
    (((c.put key v1).put key v2).order.length = (c.put key v1).order.length) := by
  have hwf1 : (c.put key v1).WF := wf_step hwf (Op.put key v1)
  have hcap1 : 0 < (c.put key v1).capacity := by
    rw [capacity_put]
    exact hcap
  have hle1 : ((c.put key v1).order.length : Int) ≤ (c.put key v1).capacity := by
    have h2 := hwf1.2
    rw [max_eq_left hcap1.le] at h2
    exact h2
  have hmem1 : key ∈ (c.put key v1).index := by
    rw [mem_index_iff, findVal_put_self_of_pos hcap]
    rfl
  have hfv2 : findVal key (((c.put key v1).put key v2).order) = some v2 :=
    findVal_put_self_of_pos hcap1
  constructor
  · rw [get_of_findVal_some hfv2]
  · exact length_put_of_mem v2 hmem1 hle1

/-- C6 witness: `put 5 7; put 5 9` on a fresh capacity-2 cache; `get 5`
returns 9 and the second `put` leaves the entry count unchanged. -/
theorem idempotent_reinsert_witness :
    ((((LRUCache.init 2).put 5 7).put 5 9).get 5).2 = 9 ∧
      (((LRUCache.init 2).put 5 7).put 5 9).order.length
        = ((LRUCache.init 2).put 5 7).order.length :=
  idempotent_reinsert (LRUCache.init 2) (by decide) (by decide) 5 7 9

/-- C10: Constant-time contract — in the cost model where every hash-index
operation and every node-link read or write costs one step (the model under
which the spec states its O(1) contract), each `get` takes at most 12 steps
and each `put` at most 21, bounds independent of the cache state: neither
operation traverses the chain or the index, and the eviction victim is
reached through the single tail-adjacent link. -/
theorem constant_time (c : LRUCache) (key : Int) :
    LRUCache.getSteps c key ≤ 12 ∧ LRUCache.putSteps c key ≤ 21 := by
  constructor
  · simp only [LRUCache.getSteps, removeSteps, addSteps]
    by_cases h : (findVal key c.order).isSome <;> simp [h]
  · simp only [LRUCache.putSteps, removeSteps, addSteps]
    by_cases h : (findVal key c.order).isSome <;>
      simp only [h, if_true, if_false, Bool.false_eq_true] <;>
      split <;> norm_num

end LRU
